import Mathlib

/-!
Verification of the EPG merge script (`merge_epg.py`).

The script parses XML Electronic Program Guide documents, repairs missing
`lang` attributes, merges several documents into one `tv` tree while
deduplicating channels (by `id`) and programmes (by `(channel, start, stop)`),
and writes the result.  This file gives a shallow embedding of the pure core
of the script and proves the specified properties about it.
-/

/-- An XML element, modelling `xml.etree.ElementTree.Element`: a tag name,
an attribute dictionary (kept as an association list in insertion order),
optional text content, and the list of child elements. -/
inductive Element : Type where
  | mk (tag : String) (attrib : List (String × String)) (text : Option String)
       (children : List Element)

/-- The element's tag name. -/
def Element.tag : Element → String
  | .mk t _ _ _ => t

/-- The element's attribute dictionary, as an association list. -/
def Element.attrib : Element → List (String × String)
  | .mk _ a _ _ => a

/-- The element's text content. -/
def Element.text : Element → Option String
  | .mk _ _ x _ => x

/-- The element's children. -/
def Element.children : Element → List Element
  | .mk _ _ _ c => c

/-- `elem.get(key)`: the value bound to `key` in the attribute dictionary,
or `none` when the attribute is absent. -/
def Element.get (e : Element) (k : String) : Option String :=
  (e.attrib.find? fun p => p.1 == k).map fun p => p.2

/-- Assignment into an attribute dictionary, modelling `elem.set(key, value)`:
an existing binding is overwritten in place, a new key is appended at the end
(Python dicts preserve insertion order). -/
def dictSet (a : List (String × String)) (k v : String) : List (String × String) :=
  if (a.find? fun p => p.1 == k).isSome then
    a.map fun p => if p.1 == k then (k, v) else p
  else a ++ [(k, v)]

/-- Configuration constant `DEFAULT_LANG = "bg"` of `merge_epg.py`. -/
def DEFAULT_LANG : String := "bg"

/-- The tag names targeted by the `lang` repair loop of `safe_parse_xml`
(line 41: `for tag in ["display-name", "title", "desc"]`). -/
def LANG_TAGS : List String := ["display-name", "title", "desc"]

/-- The per-element effect of the `lang` repair (lines 42-44 of
`merge_epg.py`): when the element's tag is one of `LANG_TAGS` and no `lang`
attribute is present, `elem.set("lang", DEFAULT_LANG)` is executed. -/
def fixAttrs (t : String) (a : List (String × String)) : List (String × String) :=
  if t ∈ LANG_TAGS ∧ (a.find? fun p => p.1 == "lang").isNone then
    dictSet a "lang" DEFAULT_LANG
  else a

mutual

/-- Applies the `lang` repair of `safe_parse_xml` to an element and to all of
its descendants. -/
def fixLangTree : Element → Element
  | .mk t a x c => .mk t (fixAttrs t a) x (fixLangList c)

/-- Applies `fixLangTree` to every element of a list. -/
def fixLangList : List Element → List Element
  | [] => []
  | e :: es => fixLangTree e :: fixLangList es

end

/-- The `lang` repair loop of `safe_parse_xml` (lines 40-44): for every tag in
`LANG_TAGS`, `root.findall(".//" + tag)` selects all proper descendants of the
root with that tag (the root itself is not a match for `.//tag`), and each
selected element lacking a `lang` attribute receives the default.  Since the
three tag names are distinct, the three passes touch disjoint elements and the
loop is equivalent to one pass over all proper descendants. -/
def set_missing_langs (root : Element) : Element :=
  match root with
  | .mk t a x c => .mk t a x (fixLangList c)

/-- Replacement of every literal ampersand, modelling line 37's
`.replace("&", "&amp;")` (a single-character pattern, so the replacement is
exactly a per-character substitution). -/
def amp_escape (s : String) : String :=
  ⟨s.data.flatMap fun ch => if ch = '&' then ("&amp;" : String).data else [ch]⟩

/-- `safe_parse_xml` (lines 30-46), with the external library calls abstracted
as parameters: `fromstring` is `ET.fromstring` on raw bytes, `fromstring_text`
is `ET.fromstring` on a repaired text, and `decode_utf8_ignore` is
`bytes.decode("utf-8", errors="ignore")`.  A direct parse is attempted; on
failure the decoded text has every `&` replaced by `&amp;` and is reparsed,
and a failure of that second parse propagates.  Any successfully parsed tree
then undergoes the `lang` repair. -/
def safe_parse_xml (fromstring : List Nat → Except String Element)
    (fromstring_text : String → Except String Element)
    (decode_utf8_ignore : List Nat → String) (data : List Nat) :
    Except String Element :=
  match fromstring data with
  | .ok root => .ok (set_missing_langs root)
  | .error _ =>
    match fromstring_text (amp_escape (decode_utf8_ignore data)) with
    | .ok root => .ok (set_missing_langs root)
    | .error e => .error e

/-- The mutable state of `merge_epgs` during its loop: the children appended
to `merged_root` so far, the `seen_channels` set and the `seen_programs` set
(modelled as duplicate-free-by-construction lists). -/
structure MergeState where
  out : List Element
  seen_channels : List String
  seen_programs : List (Option String × Option String × Option String)

/-- The deduplication key of a programme (line 65):
`(prog.get("channel"), prog.get("start"), prog.get("stop"))`. -/
def progKey (prog : Element) : Option String × Option String × Option String :=
  (prog.get "channel", prog.get "start", prog.get "stop")

/-- `root.findall(tag)` for a plain tag name: the direct children of `root`
whose tag is `tag`. -/
def findall (root : Element) (t : String) : List Element :=
  root.children.filter fun e => e.tag == t

/-- One iteration of the channel loop of `merge_epgs` (lines 57-61): the
channel is appended and its id recorded only when `cid` is truthy (present and
non-empty) and not seen before. -/
def stepChannel (st : MergeState) (ch : Element) : MergeState :=
  match ch.get "id" with
  | none => st
  | some cid =>
    if cid ≠ "" ∧ cid ∉ st.seen_channels then
      { st with out := st.out ++ [ch], seen_channels := st.seen_channels ++ [cid] }
    else st

/-- One iteration of the programme loop of `merge_epgs` (lines 64-68): the
programme is appended and its key recorded only when the key is new. -/
def stepProgramme (st : MergeState) (prog : Element) : MergeState :=
  if progKey prog ∉ st.seen_programs then
    { st with out := st.out ++ [prog], seen_programs := st.seen_programs ++ [progKey prog] }
  else st

/-- The body of the outer loop of `merge_epgs` for one input document: first
the channel loop over `root.findall("channel")`, then the programme loop over
`root.findall("programme")`. -/
def mergeDoc (st : MergeState) (root : Element) : MergeState :=
  (findall root "programme").foldl stepProgramme
    ((findall root "channel").foldl stepChannel st)

/-- `merge_epgs` (lines 49-71): folds the input documents in order through
`mergeDoc`, starting from an empty `tv` root and empty seen-sets, and returns
the merged root. -/
def merge_epgs (epg_roots : List Element) : Element :=
  .mk "tv" [] none ((epg_roots.foldl mergeDoc ⟨[], [], []⟩).out)

/-- The observable outcome of one run of `main` (lines 83-99): whether
`merge_epgs` was invoked, the document handed to `save_epg` (none when no
write happens), and whether the terminal no-valid-data message was printed. -/
structure RunResult where
  merger_invoked : Bool
  written : Option Element
  no_valid_msg : Bool

/-- `main` (lines 83-99) with fetching and parsing abstracted: `parsed`
lists, per configured URL in order, the parsed root for a source that was
downloaded and parsed successfully, or `none` for a source whose processing
raised (the exception is caught and the source skipped, lines 91-92).  When
no source succeeded, `main` prints the terminal message and returns before
merging; otherwise it merges the successful roots and writes the result. -/
def main_pipeline (parsed : List (Option Element)) : RunResult :=
  match parsed.filterMap id with
  | [] => { merger_invoked := false, written := none, no_valid_msg := true }
  | _ :: _ =>
    { merger_invoked := true
      written := some (merge_epgs (parsed.filterMap id))
      no_valid_msg := false }

/-- The element reached from `e` by following a list of child indices; `none`
when the path leaves the tree.  Used to speak about all descendants of a
tree. -/
def getPath : Element → List Nat → Option Element
  | e, [] => some e
  | e, i :: p =>
    match e.children[i]? with
    | some c => getPath c p
    | none => none

/-- The filter selecting channel elements carrying the id `cid`. -/
def chanMatch (cid : String) (e : Element) : Bool :=
  e.tag == "channel" && e.get "id" == some cid

/-- Invariant tying a merge state to the input documents already consumed:
among the children appended so far, channel ids are pairwise distinct,
non-empty, and recorded in `seen_channels`, and programme keys are pairwise
distinct and recorded in `seen_programs`. -/
def InvUniq (st : MergeState) : Prop :=
  ((st.out.filter fun e => e.tag == "channel").map fun e => e.get "id").Nodup ∧
  (∀ e ∈ st.out, e.tag = "channel" →
    ∃ c, e.get "id" = some c ∧ c ≠ "" ∧ c ∈ st.seen_channels) ∧
  ((st.out.filter fun e => e.tag == "programme").map progKey).Nodup ∧
  (∀ e ∈ st.out, e.tag = "programme" → progKey e ∈ st.seen_programs)

/-- Invariant for the first-seen-wins property: relative to the stream of
channel elements already processed, the output holds exactly the first
channel carrying `cid`, and `cid` is in `seen_channels` exactly when some
processed channel carried it. -/
def InvFirst (cid : String) (stream : List Element) (st : MergeState) : Prop :=
  st.out.filter (chanMatch cid) = (stream.filter (chanMatch cid)).take 1 ∧
  (cid ∈ st.seen_channels ↔ stream.filter (chanMatch cid) ≠ [])

/-- A programme element used in concrete evaluations. -/
def progX : Element :=
  .mk "programme" [("channel", "c1"), ("start", "t0"), ("stop", "t1")] (some "Show") []

/-- A channel element used in concrete evaluations. -/
def chanY : Element := .mk "channel" [("id", "y1")] none [.mk "display-name" [] (some "Y") []]

/-- A document containing one programme and no channel. -/
def docProgOnly : Element := .mk "tv" [] none [progX]

/-- A document containing one channel and no programme. -/
def docChanOnly : Element := .mk "tv" [] none [chanY]

/-- A channel element with no `id` attribute. -/
def chanNoId : Element := .mk "channel" [] none [.mk "display-name" [] (some "N") []]

/-- A document whose only channel lacks an `id` attribute. -/
def docChanNoId : Element := .mk "tv" [] none [chanNoId]

/-- A channel with id `bg2`, first variant. -/
def chanA : Element := .mk "channel" [("id", "bg2")] none [.mk "display-name" [("lang", "en")] (some "A") []]

/-- A channel with id `bg2`, second variant, with different children. -/
def chanB : Element := .mk "channel" [("id", "bg2")] none [.mk "display-name" [("lang", "en")] (some "B") []]

/-- A document containing `chanA`. -/
def docA : Element := .mk "tv" [] none [chanA]

/-- A document containing `chanB`. -/
def docB : Element := .mk "tv" [] none [chanB]

/-- A `title` element whose `lang` attribute is present but empty. -/
def titleEmptyLang : Element := .mk "title" [("lang", "")] (some "T") []

/-- A document whose only descendant is `titleEmptyLang`. -/
def docTitleEmptyLang : Element := .mk "tv" [] none [titleEmptyLang]

/-- A `title` element lacking a `lang` attribute. -/
def titleNoLang : Element := .mk "title" [] (some "T") []

/-- A document whose only descendant is `titleNoLang`. -/
def docTitleNoLang : Element := .mk "tv" [] none [titleNoLang]

/-- An empty `tv` document. -/
def tvEmpty : Element := .mk "tv" [] none []

/-! ### Basic lemmas about the embedding -/

theorem fixLangList_eq_map (l : List Element) : fixLangList l = l.map fixLangTree := by
  induction l with
  | nil => rfl
  | cons e es ih => rw [fixLangList, ih, List.map_cons]

theorem fixLangTree_def (e : Element) :
    fixLangTree e = .mk e.tag (fixAttrs e.tag e.attrib) e.text (fixLangList e.children) := by
  cases e
  rfl

theorem tag_fixLangTree (e : Element) : (fixLangTree e).tag = e.tag := by
  rw [fixLangTree_def]
  rfl

theorem text_fixLangTree (e : Element) : (fixLangTree e).text = e.text := by
  rw [fixLangTree_def]
  rfl

theorem attrib_fixLangTree (e : Element) : (fixLangTree e).attrib = fixAttrs e.tag e.attrib := by
  rw [fixLangTree_def]
  rfl

theorem children_fixLangTree (e : Element) :
    (fixLangTree e).children = e.children.map fixLangTree := by
  rw [fixLangTree_def]
  exact fixLangList_eq_map e.children

theorem set_missing_langs_def (root : Element) :
    set_missing_langs root = .mk root.tag root.attrib root.text (root.children.map fixLangTree) := by
  cases root
  rw [set_missing_langs]
  rw [fixLangList_eq_map]
  rfl

theorem getPath_fixLangTree (p : List Nat) (e : Element) :
    getPath (fixLangTree e) p = (getPath e p).map fixLangTree := by
  induction p generalizing e with
  | nil => rfl
  | cons i p ih =>
    rw [getPath, getPath, children_fixLangTree, List.getElem?_map]
    cases h : e.children[i]? with
    | none => rfl
    | some c => exact ih c

theorem getPath_set_missing_langs (root : Element) (i : Nat) (p : List Nat) :
    getPath (set_missing_langs root) (i :: p) = (getPath root (i :: p)).map fixLangTree := by
  rw [getPath, getPath, set_missing_langs_def]
  show (match (root.children.map fixLangTree)[i]? with
    | some c => getPath c p
    | none => none) = _
  rw [List.getElem?_map]
  cases h : root.children[i]? with
  | none => rfl
  | some c => exact getPath_fixLangTree p c

theorem find_append_of_none {p : (String × String) → Bool}
    {l : List (String × String)} (h : l.find? p = none)
    (l2 : List (String × String)) : (l ++ l2).find? p = l2.find? p := by
  induction l with
  | nil => rfl
  | cons q l ih =>
    rw [List.find?_cons] at h
    rw [List.cons_append, List.find?_cons]
    cases hq : p q with
    | false =>
      rw [hq] at h
      simpa using ih h
    | true => rw [hq] at h; exact absurd h (by simp)

theorem get_eq_none_iff (e : Element) (k : String) :
    e.get k = none ↔ (e.attrib.find? fun p => p.1 == k) = none := by
  rw [Element.get]
  exact Option.map_eq_none'

theorem fixAttrs_of_absent {t : String} {a : List (String × String)}
    (ht : t ∈ LANG_TAGS) (ha : (a.find? fun p => p.1 == "lang") = none) :
    fixAttrs t a = a ++ [("lang", DEFAULT_LANG)] := by
  rw [fixAttrs, if_pos ⟨ht, by rw [ha]; rfl⟩, dictSet, if_neg (by rw [ha]; simp)]

theorem fixAttrs_of_present {t : String} {a : List (String × String)} {q : String × String}
    (ha : (a.find? fun p => p.1 == "lang") = some q) :
    fixAttrs t a = a := by
  rw [fixAttrs, if_neg]
  intro hc
  rw [ha] at hc
  exact absurd hc.2 (by simp)

theorem fixAttrs_of_other {t : String} (a : List (String × String))
    (ht : t ∉ LANG_TAGS) : fixAttrs t a = a := by
  rw [fixAttrs, if_neg]
  intro hc
  exact ht hc.1

/-- C6: `safe_parse_xml` fails exactly when both the direct parse of the bytes
and the reparse of the repaired text fail, where the repaired text is the
decoded input with every literal `&` replaced by `&amp;`; the replacement is
blind, so the already-escaped entity `&amp;` becomes `&amp;amp;`. -/
theorem safe_parse_xml_fails_iff_both (fromstring : List Nat → Except String Element)
    (fromstring_text : String → Except String Element)
    (decode_utf8_ignore : List Nat → String) (data : List Nat) :
    ((safe_parse_xml fromstring fromstring_text decode_utf8_ignore data).isOk = false ↔
      (fromstring data).isOk = false ∧
        (fromstring_text (amp_escape (decode_utf8_ignore data))).isOk = false) ∧
    amp_escape "&amp;" = "&amp;amp;" := by
  constructor
  · rw [safe_parse_xml]
    cases h1 : fromstring data with
    | ok root => simp [h1, Except.isOk, Except.toBool]
    | error e1 =>
      cases h2 : fromstring_text (amp_escape (decode_utf8_ignore data)) with
      | ok root => simp [h2, Except.isOk, Except.toBool]
      | error e2 => simp [h2, Except.isOk, Except.toBool]
  · decide

/-- C9: when every configured source fails to download or parse, the pipeline
reports the terminal message and stops without invoking `merge_epgs` or
writing a file; when at least one source succeeds, it merges the successful
documents and hands the result to the writer. -/
theorem main_pipeline_spec (parsed : List (Option Element)) :
    (parsed.filterMap id = [] ↔ ∀ r ∈ parsed, r = none) ∧
    (parsed.filterMap id = [] →
      main_pipeline parsed = ⟨false, none, true⟩) ∧
    (parsed.filterMap id ≠ [] →
      main_pipeline parsed = ⟨true, some (merge_epgs (parsed.filterMap id)), false⟩) := by
  refine ⟨by simp [List.filterMap_eq_nil_iff], ?_, ?_⟩
  · intro h
    rw [main_pipeline, h]
  · intro h
    rw [main_pipeline]
    cases h2 : parsed.filterMap id with
    | nil => exact absurd h2 h
    | cons a l => rfl

/-- Witness for C9 at concrete inputs: the all-failed run writes nothing and
reports, and a run with one parsed document merges and writes it. -/
theorem main_pipeline_spec_witness :
    main_pipeline [none] = ⟨false, none, true⟩ ∧
    main_pipeline [some tvEmpty] = ⟨true, some (merge_epgs [tvEmpty]), false⟩ :=
  ⟨(main_pipeline_spec [none]).2.1 rfl,
    (main_pipeline_spec [some tvEmpty]).2.2 (by simp)⟩

/-- C7: after the repair of `safe_parse_xml`, every proper descendant tagged
`display-name`, `title` or `desc` that lacked a `lang` attribute carries the
default language, and one that had a `lang` attribute keeps its value. -/
theorem lang_repair_defaults (root : Element) (p : List Nat) (e : Element)
    (hp : p ≠ []) (he : getPath root p = some e) (ht : e.tag ∈ LANG_TAGS) :
    ∃ e2, getPath (set_missing_langs root) p = some e2 ∧
      (e.get "lang" = none → e2.get "lang" = some DEFAULT_LANG) ∧
      (∀ v, e.get "lang" = some v → e2.get "lang" = some v) := by
  cases p with
  | nil => exact absurd rfl hp
  | cons i p =>
    refine ⟨fixLangTree e, ?_, ?_, ?_⟩
    · rw [getPath_set_missing_langs, he]
      rfl
    · intro hnone
      rw [get_eq_none_iff] at hnone
      rw [Element.get, attrib_fixLangTree, fixAttrs_of_absent ht hnone,
        find_append_of_none hnone]
      rfl
    · intro v hv
      rw [Element.get] at hv
      rcases Option.map_eq_some'.mp hv with ⟨q, hq, hqv⟩
      rw [Element.get, attrib_fixLangTree, fixAttrs_of_present hq, hq, Option.map_some', hqv]

/-- Witness for C7: in `docTitleNoLang` the descendant at path `[0]` is a
`title` without `lang`, and after the repair it carries the default. -/
theorem lang_repair_defaults_witness :
    ([0] : List Nat) ≠ [] ∧ getPath docTitleNoLang [0] = some titleNoLang ∧
      titleNoLang.tag ∈ LANG_TAGS ∧
      ∃ e2, getPath (set_missing_langs docTitleNoLang) [0] = some e2 ∧
        (titleNoLang.get "lang" = none → e2.get "lang" = some DEFAULT_LANG) ∧
        (∀ v, titleNoLang.get "lang" = some v → e2.get "lang" = some v) :=
  ⟨by simp, rfl, by decide,
    lang_repair_defaults docTitleNoLang [0] titleNoLang (by simp) rfl (by decide)⟩

/-- Counterexample to C8: in `docTitleEmptyLang` the `title` descendant
arrives with an empty-string `lang` attribute, and after the repair of
`safe_parse_xml` it still carries the empty string, so not every
`display-name`/`title`/`desc` descendant of the repaired tree has a
non-empty `lang` attribute. -/
theorem lang_repair_nonempty_cex :
    ¬ (∀ p e2, p ≠ [] → getPath (set_missing_langs docTitleEmptyLang) p = some e2 →
        e2.tag ∈ LANG_TAGS → ∃ v, e2.get "lang" = some v ∧ v ≠ "") := by
  intro h
  rcases h [0] titleEmptyLang (by simp) rfl (by decide) with ⟨v, hv, hne⟩
  have : v = "" := by
    have h0 : titleEmptyLang.get "lang" = some "" := rfl
    rw [h0] at hv
    exact (Option.some.injEq _ _ ▸ hv.symm :)
  exact hne this

/-- C8 amended: after the repair of `safe_parse_xml`, every proper descendant
tagged `display-name`, `title` or `desc` has a `lang` attribute — the default
(which is non-empty) when the attribute was absent, but an attribute that
arrived with the empty string stays empty. -/
theorem lang_repair_attr_present (root : Element) (p : List Nat) (e2 : Element)
    (hp : p ≠ []) (he : getPath (set_missing_langs root) p = some e2)
    (ht : e2.tag ∈ LANG_TAGS) :
    ∃ v, e2.get "lang" = some v := by
  cases p with
  | nil => exact absurd rfl hp
  | cons i p =>
    rw [getPath_set_missing_langs] at he
    rcases Option.map_eq_some'.mp he with ⟨e, hpath, he2⟩
    subst he2
    rw [tag_fixLangTree] at ht
    cases hf : e.attrib.find? fun q => q.1 == "lang" with
    | some q =>
      refine ⟨q.2, ?_⟩
      rw [Element.get, attrib_fixLangTree, fixAttrs_of_present hf, hf]
      rfl
    | none =>
      refine ⟨DEFAULT_LANG, ?_⟩
      rw [Element.get, attrib_fixLangTree, fixAttrs_of_absent ht hf,
        find_append_of_none hf]
      rfl

/-- Witness for the amended C8: the repaired `title` of `docTitleNoLang`
carries a `lang` attribute. -/
theorem lang_repair_attr_present_witness :
    ([0] : List Nat) ≠ [] ∧
      getPath (set_missing_langs docTitleNoLang) [0] = some (fixLangTree titleNoLang) ∧
      (fixLangTree titleNoLang).tag ∈ LANG_TAGS ∧
      ∃ v, (fixLangTree titleNoLang).get "lang" = some v :=
  ⟨by simp, rfl, by decide,
    lang_repair_attr_present docTitleNoLang [0] (fixLangTree titleNoLang) (by simp) rfl (by decide)⟩

/-- C10: the post-parse normalization of `safe_parse_xml` is a frame: every
node of the parsed tree is preserved (same tag, same text, same number of
children, with absent paths staying absent), and the attribute dictionary is
unchanged except that a proper descendant tagged `display-name`, `title` or
`desc` with no `lang` attribute receives exactly the appended binding
`("lang", DEFAULT_LANG)`. -/
theorem lang_repair_frame (root : Element) (p : List Nat) :
    (getPath root p = none → getPath (set_missing_langs root) p = none) ∧
    (∀ e, getPath root p = some e →
      ∃ e2, getPath (set_missing_langs root) p = some e2 ∧
        e2.tag = e.tag ∧ e2.text = e.text ∧
        e2.children.length = e.children.length ∧
        (p ≠ [] → e.tag ∈ LANG_TAGS → (e.attrib.find? fun q => q.1 == "lang") = none →
          e2.attrib = e.attrib ++ [("lang", DEFAULT_LANG)]) ∧
        ((p = [] ∨ e.tag ∉ LANG_TAGS ∨ (e.attrib.find? fun q => q.1 == "lang") ≠ none) →
          e2.attrib = e.attrib)) := by
  cases p with
  | nil =>
    constructor
    · intro h
      exact absurd h (by rw [getPath]; simp)
    · intro e he
      rw [getPath] at he
      have he' : root = e := by
        injection he
      subst he'
      cases root with
      | mk t a x c =>
        refine ⟨set_missing_langs (.mk t a x c), rfl, rfl, rfl, ?_, ?_, ?_⟩
        · show (fixLangList c).length = c.length
          rw [fixLangList_eq_map, List.length_map]
        · intro hp
          exact absurd rfl hp
        · intro _
          rfl
  | cons i p =>
    constructor
    · intro h
      rw [getPath_set_missing_langs, h]
      rfl
    · intro e he
      refine ⟨fixLangTree e, ?_, tag_fixLangTree e, text_fixLangTree e, ?_, ?_, ?_⟩
      · rw [getPath_set_missing_langs, he]
        rfl
      · rw [children_fixLangTree, List.length_map]
      · intro hp ht hf
        rw [attrib_fixLangTree, fixAttrs_of_absent ht hf]
      · intro hcase
        rw [attrib_fixLangTree]
        rcases hcase with hc | hc | hc
        · exact absurd hc (by simp)
        · exact fixAttrs_of_other e.attrib hc
        · cases hf : e.attrib.find? fun q => q.1 == "lang" with
          | none => exact absurd hf hc
          | some q => exact fixAttrs_of_present hf

/-- Witness for C10 at a concrete tree and path: the untouched root and the
repaired `title` descendant of `docTitleNoLang` both satisfy the frame. -/
theorem lang_repair_frame_witness :
    getPath docTitleNoLang [0] = some titleNoLang ∧
      ∃ e2, getPath (set_missing_langs docTitleNoLang) [0] = some e2 ∧
        e2.tag = titleNoLang.tag ∧ e2.text = titleNoLang.text ∧
        e2.children.length = titleNoLang.children.length ∧
        (([0] : List Nat) ≠ [] → titleNoLang.tag ∈ LANG_TAGS →
          (titleNoLang.attrib.find? fun q => q.1 == "lang") = none →
          e2.attrib = titleNoLang.attrib ++ [("lang", DEFAULT_LANG)]) ∧
        ((([0] : List Nat) = [] ∨ titleNoLang.tag ∉ LANG_TAGS ∨
            (titleNoLang.attrib.find? fun q => q.1 == "lang") ≠ none) →
          e2.attrib = titleNoLang.attrib) :=
  ⟨rfl, (lang_repair_frame docTitleNoLang [0]).2 titleNoLang rfl⟩

/-! ### Lemmas about the merge loop -/

theorem stepChannel_some (st : MergeState) (ch : Element) (cid : String)
    (hid : ch.get "id" = some cid) :
    stepChannel st ch =
      if cid ≠ "" ∧ cid ∉ st.seen_channels then
        { st with out := st.out ++ [ch], seen_channels := st.seen_channels ++ [cid] }
      else st := by
  rw [stepChannel, hid]

theorem stepChannel_cases (st : MergeState) (ch : Element) :
    stepChannel st ch = st ∨
      ∃ cid, ch.get "id" = some cid ∧ cid ≠ "" ∧ cid ∉ st.seen_channels ∧
        stepChannel st ch =
          { st with out := st.out ++ [ch], seen_channels := st.seen_channels ++ [cid] } := by
  rw [stepChannel]
  cases hid : ch.get "id" with
  | none => exact Or.inl rfl
  | some cid =>
    by_cases hc : cid ≠ "" ∧ cid ∉ st.seen_channels
    · exact Or.inr ⟨cid, rfl, hc.1, hc.2, if_pos hc⟩
    · exact Or.inl (if_neg hc)

theorem stepChannel_self (st : MergeState) (ch : Element)
    (h : ∀ cid, ch.get "id" = some cid → cid = "" ∨ cid ∈ st.seen_channels) :
    stepChannel st ch = st := by
  rw [stepChannel]
  cases hid : ch.get "id" with
  | none => rfl
  | some cid =>
    refine if_neg ?_
    intro hc
    rcases h cid hid with h0 | h0
    · exact hc.1 h0
    · exact hc.2 h0

theorem stepProgramme_cases (st : MergeState) (prog : Element) :
    (progKey prog ∈ st.seen_programs ∧ stepProgramme st prog = st) ∨
      (progKey prog ∉ st.seen_programs ∧ stepProgramme st prog =
        { st with out := st.out ++ [prog],
                  seen_programs := st.seen_programs ++ [progKey prog] }) := by
  rw [stepProgramme]
  by_cases hc : progKey prog ∉ st.seen_programs
  · exact Or.inr ⟨hc, if_pos hc⟩
  · exact Or.inl ⟨not_not.mp hc, if_neg hc⟩

theorem stepChannel_seen_programs (st : MergeState) (ch : Element) :
    (stepChannel st ch).seen_programs = st.seen_programs := by
  rcases stepChannel_cases st ch with h | ⟨cid, _, _, _, h⟩ <;> rw [h]

theorem stepProgramme_seen_channels (st : MergeState) (prog : Element) :
    (stepProgramme st prog).seen_channels = st.seen_channels := by
  rcases stepProgramme_cases st prog with ⟨_, h⟩ | ⟨_, h⟩ <;> rw [h]

theorem foldChannel_seen_programs (chs : List Element) (st : MergeState) :
    (chs.foldl stepChannel st).seen_programs = st.seen_programs := by
  induction chs generalizing st with
  | nil => rfl
  | cons ch chs ih => rw [List.foldl_cons, ih, stepChannel_seen_programs]

theorem foldProgramme_seen_channels (ps : List Element) (st : MergeState) :
    (ps.foldl stepProgramme st).seen_channels = st.seen_channels := by
  induction ps generalizing st with
  | nil => rfl
  | cons p ps ih => rw [List.foldl_cons, ih, stepProgramme_seen_channels]

theorem foldChannel_seen_append (chs : List Element) (st : MergeState) :
    ∃ l, (chs.foldl stepChannel st).seen_channels = st.seen_channels ++ l := by
  induction chs generalizing st with
  | nil => exact ⟨[], (List.append_nil _).symm⟩
  | cons ch chs ih =>
    rw [List.foldl_cons]
    rcases ih (stepChannel st ch) with ⟨l, hl⟩
    rcases stepChannel_cases st ch with h | ⟨cid, _, _, _, h⟩
    · exact ⟨l, by rw [hl, h]⟩
    · exact ⟨cid :: l, by rw [hl, h, List.append_assoc]; rfl⟩

theorem foldProgramme_seen_append (ps : List Element) (st : MergeState) :
    ∃ l, (ps.foldl stepProgramme st).seen_programs = st.seen_programs ++ l := by
  induction ps generalizing st with
  | nil => exact ⟨[], (List.append_nil _).symm⟩
  | cons p ps ih =>
    rw [List.foldl_cons]
    rcases ih (stepProgramme st p) with ⟨l, hl⟩
    rcases stepProgramme_cases st p with ⟨_, h⟩ | ⟨_, h⟩
    · exact ⟨l, by rw [hl, h]⟩
    · exact ⟨progKey p :: l, by rw [hl, h, List.append_assoc]; rfl⟩

theorem mem_seen_foldChannel {chs : List Element} {ch : Element} {cid : String}
    (hm : ch ∈ chs) (hid : ch.get "id" = some cid) (hne : cid ≠ "") (st : MergeState) :
    cid ∈ (chs.foldl stepChannel st).seen_channels := by
  induction chs generalizing st with
  | nil => exact absurd hm (List.not_mem_nil ch)
  | cons c chs ih =>
    rw [List.foldl_cons]
    rcases List.mem_cons.mp hm with h | h
    · subst h
      rcases foldChannel_seen_append chs (stepChannel st ch) with ⟨l, hl⟩
      rw [hl]
      refine List.mem_append_left l ?_
      rw [stepChannel_some st ch cid hid]
      by_cases hc : cid ≠ "" ∧ cid ∉ st.seen_channels
      · rw [if_pos hc]
        exact List.mem_append_right _ (List.mem_singleton.mpr rfl)
      · rw [if_neg hc]
        rcases Decidable.not_and_iff_or_not.mp hc with h0 | h0
        · exact absurd hne h0
        · exact not_not.mp h0
    · exact ih h (stepChannel st c)

theorem mem_seen_foldProgramme {ps : List Element} {prog : Element}
    (hm : prog ∈ ps) (st : MergeState) :
    progKey prog ∈ (ps.foldl stepProgramme st).seen_programs := by
  induction ps generalizing st with
  | nil => exact absurd hm (List.not_mem_nil prog)
  | cons p ps ih =>
    rw [List.foldl_cons]
    rcases List.mem_cons.mp hm with h | h
    · subst h
      rcases foldProgramme_seen_append ps (stepProgramme st prog) with ⟨l, hl⟩
      rw [hl]
      refine List.mem_append_left l ?_
      rcases stepProgramme_cases st prog with ⟨hin, heq⟩ | ⟨hout, heq⟩
      · rw [heq]; exact hin
      · rw [heq]
        exact List.mem_append_right _ (List.mem_singleton.mpr rfl)
    · exact ih h (stepProgramme st p)

theorem foldChannel_noop {chs : List Element} {st : MergeState}
    (h : ∀ ch ∈ chs, ∀ cid, ch.get "id" = some cid → cid = "" ∨ cid ∈ st.seen_channels) :
    chs.foldl stepChannel st = st := by
  induction chs with
  | nil => rfl
  | cons ch chs ih =>
    rw [List.foldl_cons, stepChannel_self st ch (h ch (List.mem_cons_self ch chs))]
    exact ih fun c hc => h c (List.mem_cons_of_mem ch hc)

theorem foldProgramme_noop {ps : List Element} {st : MergeState}
    (h : ∀ p ∈ ps, progKey p ∈ st.seen_programs) :
    ps.foldl stepProgramme st = st := by
  induction ps with
  | nil => rfl
  | cons p ps ih =>
    have h1 : stepProgramme st p = st := by
      rw [stepProgramme, if_neg (not_not.mpr (h p (List.mem_cons_self p ps)))]
    rw [List.foldl_cons, h1]
    exact ih fun q hq => h q (List.mem_cons_of_mem p hq)

theorem mergeDoc_idem (st : MergeState) (D : Element) :
    mergeDoc (mergeDoc st D) D = mergeDoc st D := by
  rw [mergeDoc]
  have hchs : (findall D "channel").foldl stepChannel (mergeDoc st D) = mergeDoc st D := by
    refine foldChannel_noop ?_
    intro ch hm cid hid
    by_cases hc : cid = ""
    · exact Or.inl hc
    · refine Or.inr ?_
      rw [mergeDoc, foldProgramme_seen_channels]
      exact mem_seen_foldChannel hm hid hc st
  rw [hchs]
  refine foldProgramme_noop ?_
  intro p hm
  rw [mergeDoc]
  exact mem_seen_foldProgramme hm _

/-- C5: merging a document with itself yields the same merged document as
merging it alone. -/
theorem merge_epgs_idem (D : Element) : merge_epgs [D, D] = merge_epgs [D] := by
  show Element.mk "tv" [] none (mergeDoc (mergeDoc ⟨[], [], []⟩ D) D).out =
    Element.mk "tv" [] none (mergeDoc ⟨[], [], []⟩ D).out
  rw [mergeDoc_idem]

theorem tag_of_mem_findall {e root : Element} {t : String} (h : e ∈ findall root t) :
    e.tag = t := by
  rw [findall] at h
  have hb := List.of_mem_filter h
  exact beq_iff_eq.mp hb

theorem invUniq_stepChannel {st : MergeState} {ch : Element} (ht : ch.tag = "channel")
    (h : InvUniq st) : InvUniq (stepChannel st ch) := by
  obtain ⟨h1, h2, h3, h4⟩ := h
  rcases stepChannel_cases st ch with heq | ⟨cid, hid, hne, hnotin, heq⟩
  · rw [heq]
    exact ⟨h1, h2, h3, h4⟩
  · rw [heq]
    have hchb : (ch.tag == "channel") = true := beq_iff_eq.mpr ht
    have hchp : (ch.tag == "programme") = false := by rw [ht]; decide
    refine ⟨?_, ?_, ?_, ?_⟩
    · show (((st.out ++ [ch]).filter fun e => e.tag == "channel").map fun e => e.get "id").Nodup
      rw [List.filter_append, show List.filter (fun e => e.tag == "channel") [ch] = [ch] by
        simp [List.filter, hchb], List.map_append]
      refine List.nodup_append.mpr ⟨h1, List.nodup_singleton _, ?_⟩
      intro a ha hb
      rcases List.mem_map.mp ha with ⟨e, hef, hea⟩
      have htagf := List.of_mem_filter hef
      rcases h2 e (List.mem_of_mem_filter hef) (beq_iff_eq.mp htagf) with ⟨c, hc, _, hcin⟩
      have ha2 : a = ch.get "id" := by simpa using hb
      rw [hid] at ha2
      rw [ha2, hc] at hea
      have : c = cid := by injection hea
      exact hnotin (this ▸ hcin)
    · intro e hm htag
      rcases List.mem_append.mp hm with h0 | h0
      · rcases h2 e h0 htag with ⟨c, hc, hcne, hcin⟩
        exact ⟨c, hc, hcne, List.mem_append_left _ hcin⟩
      · have : e = ch := List.mem_singleton.mp h0
        subst this
        exact ⟨cid, hid, hne, List.mem_append_right _ (List.mem_singleton.mpr rfl)⟩
    · show (((st.out ++ [ch]).filter fun e => e.tag == "programme").map progKey).Nodup
      rw [List.filter_append, show List.filter (fun e => e.tag == "programme") [ch] = [] by
        simp [List.filter, hchp], List.append_nil]
      exact h3
    · intro e hm htag
      rcases List.mem_append.mp hm with h0 | h0
      · exact h4 e h0 htag
      · have : e = ch := List.mem_singleton.mp h0
        subst this
        rw [ht] at htag
        exact absurd htag (by decide)

theorem invUniq_stepProgramme {st : MergeState} {prog : Element} (ht : prog.tag = "programme")
    (h : InvUniq st) : InvUniq (stepProgramme st prog) := by
  obtain ⟨h1, h2, h3, h4⟩ := h
  rcases stepProgramme_cases st prog with ⟨_, heq⟩ | ⟨hnotin, heq⟩
  · rw [heq]
    exact ⟨h1, h2, h3, h4⟩
  · rw [heq]
    have hchb : (prog.tag == "programme") = true := beq_iff_eq.mpr ht
    have hchc : (prog.tag == "channel") = false := by rw [ht]; decide
    refine ⟨?_, ?_, ?_, ?_⟩
    · show (((st.out ++ [prog]).filter fun e => e.tag == "channel").map fun e => e.get "id").Nodup
      rw [List.filter_append, show List.filter (fun e => e.tag == "channel") [prog] = [] by
        simp [List.filter, hchc], List.append_nil]
      exact h1
    · intro e hm htag
      rcases List.mem_append.mp hm with h0 | h0
      · exact h2 e h0 htag
      · have : e = prog := List.mem_singleton.mp h0
        subst this
        rw [ht] at htag
        exact absurd htag (by decide)
    · show (((st.out ++ [prog]).filter fun e => e.tag == "programme").map progKey).Nodup
      rw [List.filter_append, show List.filter (fun e => e.tag == "programme") [prog] = [prog] by
        simp [List.filter, hchb], List.map_append]
      refine List.nodup_append.mpr ⟨h3, List.nodup_singleton _, ?_⟩
      intro a ha hb
      rcases List.mem_map.mp ha with ⟨e, hef, hea⟩
      have htagf := List.of_mem_filter hef
      have hkey := h4 e (List.mem_of_mem_filter hef) (beq_iff_eq.mp htagf)
      have ha2 : a = progKey prog := by simpa using hb
      rw [ha2] at hea
      exact hnotin (hea ▸ hkey)
    · intro e hm htag
      rcases List.mem_append.mp hm with h0 | h0
      · exact List.mem_append_left _ (h4 e h0 htag)
      · have : e = prog := List.mem_singleton.mp h0
        subst this
        exact List.mem_append_right _ (List.mem_singleton.mpr rfl)

theorem invUniq_foldChannel {chs : List Element} {st : MergeState}
    (htags : ∀ e ∈ chs, e.tag = "channel") (h : InvUniq st) :
    InvUniq (chs.foldl stepChannel st) := by
  induction chs generalizing st with
  | nil => exact h
  | cons ch chs ih =>
    rw [List.foldl_cons]
    exact ih (fun e he => htags e (List.mem_cons_of_mem ch he))
      (invUniq_stepChannel (htags ch (List.mem_cons_self ch chs)) h)

theorem invUniq_foldProgramme {ps : List Element} {st : MergeState}
    (htags : ∀ e ∈ ps, e.tag = "programme") (h : InvUniq st) :
    InvUniq (ps.foldl stepProgramme st) := by
  induction ps generalizing st with
  | nil => exact h
  | cons p ps ih =>
    rw [List.foldl_cons]
    exact ih (fun e he => htags e (List.mem_cons_of_mem p he))
      (invUniq_stepProgramme (htags p (List.mem_cons_self p ps)) h)

theorem invUniq_mergeDoc {st : MergeState} (root : Element) (h : InvUniq st) :
    InvUniq (mergeDoc st root) := by
  rw [mergeDoc]
  exact invUniq_foldProgramme (fun e he => tag_of_mem_findall he)
    (invUniq_foldChannel (fun e he => tag_of_mem_findall he) h)

theorem invUniq_merge (epg_roots : List Element) :
    InvUniq (epg_roots.foldl mergeDoc ⟨[], [], []⟩) := by
  have h0 : InvUniq ⟨[], [], []⟩ := by
    refine ⟨List.nodup_nil, ?_, List.nodup_nil, ?_⟩ <;>
      exact fun e hm => absurd hm (List.not_mem_nil e)
  suffices h : ∀ st : MergeState, InvUniq st → InvUniq (epg_roots.foldl mergeDoc st) from
    h _ h0
  intro st hst
  induction epg_roots generalizing st with
  | nil => exact hst
  | cons root roots ih =>
    rw [List.foldl_cons]
    exact ih _ (invUniq_mergeDoc root hst)

/-- C1: the merged output never contains two channel elements with the same
non-empty `id`, nor two programme elements with the same
`(channel, start, stop)` key. -/
theorem merge_epgs_no_duplicates (epg_roots : List Element) :
    (((merge_epgs epg_roots).children.filter fun e => e.tag == "channel").Pairwise
      fun a b => ∀ c : String, c ≠ "" → a.get "id" = some c → ¬ b.get "id" = some c) ∧
    ((merge_epgs epg_roots).children.filter fun e => e.tag == "programme").Pairwise
      fun a b => progKey a ≠ progKey b := by
  obtain ⟨h1, _, h3, _⟩ := invUniq_merge epg_roots
  constructor
  · have h1p : ((epg_roots.foldl mergeDoc ⟨[], [], []⟩).out.filter
        fun e => e.tag == "channel").Pairwise fun a b => a.get "id" ≠ b.get "id" :=
      List.pairwise_map.mp h1
    refine List.Pairwise.imp ?_ h1p
    intro a b hab c hcne hac hbc
    exact hab (by rw [hac, hbc])
  · exact List.pairwise_map.mp h3

/-- Counterexample to C3: `docChanNoId` contains a channel without an `id`
attribute, and `merge_epgs` silently drops it from the output instead of
appending it. -/
theorem merge_epgs_missing_id_cex :
    chanNoId ∈ docChanNoId.children ∧ chanNoId.tag = "channel" ∧
      chanNoId.get "id" = none ∧ chanNoId ∉ (merge_epgs [docChanNoId]).children := by
  refine ⟨List.mem_singleton.mpr rfl, rfl, rfl, ?_⟩
  intro hm
  have h : (merge_epgs [docChanNoId]).children = [] := rfl
  rw [h] at hm
  exact List.not_mem_nil chanNoId hm

/-- C3 amended: a channel element whose `id` attribute is missing or empty is
never appended by `merge_epgs` — every channel element of the merged output
carries a non-empty `id`. -/
theorem merge_epgs_channels_have_id (epg_roots : List Element) :
    ∀ e ∈ (merge_epgs epg_roots).children, e.tag = "channel" →
      ∃ c, e.get "id" = some c ∧ c ≠ "" := by
  obtain ⟨_, h2, _, _⟩ := invUniq_merge epg_roots
  intro e hm htag
  rcases h2 e hm htag with ⟨c, hc, hne, _⟩
  exact ⟨c, hc, hne⟩

/-- Witness for the amended C3: the channel kept from `docChanOnly` has a
non-empty `id`. -/
theorem merge_epgs_channels_have_id_witness :
    chanY ∈ (merge_epgs [docChanOnly]).children ∧ chanY.tag = "channel" ∧
      ∃ c, chanY.get "id" = some c ∧ c ≠ "" := by
  have hm : chanY ∈ (merge_epgs [docChanOnly]).children := by
    show chanY ∈ [chanY]
    exact List.mem_singleton.mpr rfl
  exact ⟨hm, rfl, merge_epgs_channels_have_id [docChanOnly] chanY hm rfl⟩

/-- Counterexample to C2: merging a programme-only document followed by a
channel-only document yields the children `[progX, chanY]`, a programme
before a channel, so the merged children are not all channels followed by
all programmes. -/
theorem merge_epgs_not_grouped_cex :
    ¬ ∃ chs prs : List Element,
        (merge_epgs [docProgOnly, docChanOnly]).children = chs ++ prs ∧
        (∀ e ∈ chs, e.tag = "channel") ∧ (∀ e ∈ prs, e.tag = "programme") := by
  rintro ⟨chs, prs, heq, hch, hpr⟩
  have h0 : (merge_epgs [docProgOnly, docChanOnly]).children = [progX, chanY] := rfl
  rw [h0] at heq
  cases chs with
  | nil =>
    rw [List.nil_append] at heq
    subst heq
    have hy := hpr chanY (List.mem_cons_of_mem _ (List.mem_singleton.mpr rfl))
    exact absurd hy (by decide)
  | cons a t =>
    rw [List.cons_append] at heq
    injection heq with ha htl
    have := hch a (List.mem_cons_self a t)
    rw [← ha] at this
    exact absurd this (by decide)

theorem segs_tags {roots : List Element} {segs : List (List Element × List Element)}
    (hf : List.Forall₂ (fun (root : Element) (s : List Element × List Element) =>
      s.1.Sublist (findall root "channel") ∧ s.2.Sublist (findall root "programme"))
      roots segs) :
    ∀ s ∈ segs, (∀ e ∈ s.1, e.tag = "channel") ∧ ∀ e ∈ s.2, e.tag = "programme" := by
  induction hf with
  | nil => intro s hs; exact absurd hs (List.not_mem_nil s)
  | cons hr hrest ih =>
    intro s hs
    rcases List.mem_cons.mp hs with h0 | h0
    · subst h0
      exact ⟨fun e he => tag_of_mem_findall (hr.1.subset he),
        fun e he => tag_of_mem_findall (hr.2.subset he)⟩
    · exact ih s h0

theorem foldChannel_out_sublist (chs : List Element) (st : MergeState) :
    ∃ l, (chs.foldl stepChannel st).out = st.out ++ l ∧ l.Sublist chs := by
  induction chs generalizing st with
  | nil => exact ⟨[], (List.append_nil _).symm, List.nil_sublist []⟩
  | cons ch chs ih =>
    rw [List.foldl_cons]
    rcases ih (stepChannel st ch) with ⟨l, hl, hsub⟩
    rcases stepChannel_cases st ch with h | ⟨cid, _, _, _, h⟩
    · exact ⟨l, by rw [hl, h], hsub.cons ch⟩
    · refine ⟨ch :: l, ?_, hsub.cons₂ ch⟩
      rw [hl, h]
      show st.out ++ [ch] ++ l = st.out ++ (ch :: l)
      rw [List.append_assoc]
      rfl

theorem foldProgramme_out_sublist (ps : List Element) (st : MergeState) :
    ∃ l, (ps.foldl stepProgramme st).out = st.out ++ l ∧ l.Sublist ps := by
  induction ps generalizing st with
  | nil => exact ⟨[], (List.append_nil _).symm, List.nil_sublist []⟩
  | cons p ps ih =>
    rw [List.foldl_cons]
    rcases ih (stepProgramme st p) with ⟨l, hl, hsub⟩
    rcases stepProgramme_cases st p with ⟨_, h⟩ | ⟨_, h⟩
    · exact ⟨l, by rw [hl, h], hsub.cons p⟩
    · refine ⟨p :: l, ?_, hsub.cons₂ p⟩
      rw [hl, h]
      show st.out ++ [p] ++ l = st.out ++ (p :: l)
      rw [List.append_assoc]
      rfl

theorem mergeDoc_out (st : MergeState) (root : Element) :
    ∃ lc lp, (mergeDoc st root).out = st.out ++ (lc ++ lp) ∧
      lc.Sublist (findall root "channel") ∧ lp.Sublist (findall root "programme") := by
  rw [mergeDoc]
  rcases foldChannel_out_sublist (findall root "channel") st with ⟨lc, hc, hcs⟩
  rcases foldProgramme_out_sublist (findall root "programme")
    ((findall root "channel").foldl stepChannel st) with ⟨lp, hp, hps⟩
  refine ⟨lc, lp, ?_, hcs, hps⟩
  rw [hp, hc, List.append_assoc]

theorem merge_out_segments (roots : List Element) (st : MergeState) :
    ∃ segs : List (List Element × List Element),
      List.Forall₂ (fun (root : Element) (s : List Element × List Element) =>
        s.1.Sublist (findall root "channel") ∧ s.2.Sublist (findall root "programme"))
        roots segs ∧
      (roots.foldl mergeDoc st).out = st.out ++ (segs.map fun s => s.1 ++ s.2).flatten := by
  induction roots generalizing st with
  | nil => exact ⟨[], List.Forall₂.nil, by simp⟩
  | cons root roots ih =>
    rcases mergeDoc_out st root with ⟨lc, lp, hout, hcs, hps⟩
    rcases ih (mergeDoc st root) with ⟨segs, hf, hseg⟩
    refine ⟨(lc, lp) :: segs, List.Forall₂.cons ⟨hcs, hps⟩ hf, ?_⟩
    rw [List.foldl_cons, hseg, hout, List.map_cons, List.flatten_cons, List.append_assoc]

/-- C2 amended: the merged children are grouped per input document — for each
document, in input order, first the channels newly appended from it (a
subsequence of its channel children, in document order), then the programmes
newly appended from it (likewise); channels and programmes of different
documents may interleave. -/
theorem merge_epgs_grouped_per_document (epg_roots : List Element) :
    ∃ segs : List (List Element × List Element),
      List.Forall₂ (fun (root : Element) (s : List Element × List Element) =>
        s.1.Sublist (findall root "channel") ∧ s.2.Sublist (findall root "programme"))
        epg_roots segs ∧
      (merge_epgs epg_roots).children = (segs.map fun s => s.1 ++ s.2).flatten ∧
      ∀ s ∈ segs, (∀ e ∈ s.1, e.tag = "channel") ∧ ∀ e ∈ s.2, e.tag = "programme" := by
  rcases merge_out_segments epg_roots ⟨[], [], []⟩ with ⟨segs, hf, hout⟩
  refine ⟨segs, hf, ?_, ?_⟩
  · show (epg_roots.foldl mergeDoc ⟨[], [], []⟩).out = _
    rw [hout]
    rfl
  · exact segs_tags hf

theorem invFirst_stepChannel {cid : String} {stream : List Element} {st : MergeState}
    {ch : Element} (hcid : cid ≠ "") (ht : ch.tag = "channel")
    (h : InvFirst cid stream st) : InvFirst cid (stream ++ [ch]) (stepChannel st ch) := by
  obtain ⟨h1, h2⟩ := h
  by_cases hm : chanMatch cid ch = true
  · have hid : ch.get "id" = some cid := by
      have hm3 := hm
      rw [chanMatch, Bool.and_eq_true] at hm3
      exact beq_iff_eq.mp hm3.2
    have hfilter : (stream ++ [ch]).filter (chanMatch cid) =
        stream.filter (chanMatch cid) ++ [ch] := by
      rw [List.filter_append]
      simp [List.filter, hm]
    by_cases hseen : cid ∈ st.seen_channels
    · have hstep : stepChannel st ch = st := by
        rw [stepChannel_some st ch cid hid, if_neg]
        intro hc
        exact hc.2 hseen
      have hne : stream.filter (chanMatch cid) ≠ [] := h2.mp hseen
      rw [hstep]
      constructor
      · rw [hfilter, h1]
        cases hl : stream.filter (chanMatch cid) with
        | nil => exact absurd hl hne
        | cons a t => rfl
      · exact iff_of_true hseen (by rw [hfilter]; simp)
    · have hstep : stepChannel st ch =
          { st with out := st.out ++ [ch], seen_channels := st.seen_channels ++ [cid] } := by
        rw [stepChannel_some st ch cid hid, if_pos ⟨hcid, hseen⟩]
      have hempty : stream.filter (chanMatch cid) = [] := by
        by_contra hne
        exact hseen (h2.mpr hne)
      rw [hstep]
      constructor
      · show (st.out ++ [ch]).filter (chanMatch cid) = _
        rw [List.filter_append, h1, hfilter, hempty]
        simp [List.filter, hm]
      · refine iff_of_true (List.mem_append_right _ (List.mem_singleton.mpr rfl)) ?_
        rw [hfilter, hempty]
        simp
  · have hm2 : chanMatch cid ch = false := Bool.eq_false_iff.mpr hm
    have hfilter : (stream ++ [ch]).filter (chanMatch cid) = stream.filter (chanMatch cid) := by
      rw [List.filter_append]
      simp [List.filter, hm2]
    rcases stepChannel_cases st ch with hstep | ⟨c, hidc, hcne, hcnotin, hstep⟩
    · rw [hstep]
      exact ⟨by rw [hfilter]; exact h1, by rw [hfilter]; exact h2⟩
    · rw [hstep]
      have hcneq : c ≠ cid := by
        intro hcc
        subst hcc
        refine hm ?_
        rw [chanMatch]
        rw [Bool.and_eq_true]
        exact ⟨beq_iff_eq.mpr ht, beq_iff_eq.mpr hidc⟩
      refine ⟨?_, ?_⟩
      · show (st.out ++ [ch]).filter (chanMatch cid) =
          ((stream ++ [ch]).filter (chanMatch cid)).take 1
        rw [hfilter, List.filter_append, h1]
        simp [List.filter, hm2]
      · show cid ∈ st.seen_channels ++ [c] ↔
          (stream ++ [ch]).filter (chanMatch cid) ≠ []
        rw [hfilter]
        constructor
        · intro hmem
          rcases List.mem_append.mp hmem with h0 | h0
          · exact h2.mp h0
          · exact absurd (List.mem_singleton.mp h0).symm hcneq
        · intro hne2
          exact List.mem_append_left _ (h2.mpr hne2)

theorem invFirst_stepProgramme {cid : String} {stream : List Element} {st : MergeState}
    {prog : Element} (ht : prog.tag = "programme") (h : InvFirst cid stream st) :
    InvFirst cid stream (stepProgramme st prog) := by
  obtain ⟨h1, h2⟩ := h
  have hm : chanMatch cid prog = false := by
    rw [chanMatch]
    have hb : (prog.tag == "channel") = false := by rw [ht]; decide
    rw [hb]
    rfl
  rcases stepProgramme_cases st prog with ⟨_, hstep⟩ | ⟨_, hstep⟩
  · rw [hstep]
    exact ⟨h1, h2⟩
  · rw [hstep]
    constructor
    · show (st.out ++ [prog]).filter (chanMatch cid) = _
      rw [List.filter_append, h1]
      simp [List.filter, hm]
    · exact h2

theorem invFirst_foldChannel {cid : String} (hcid : cid ≠ "") {chs stream : List Element}
    {st : MergeState} (htags : ∀ e ∈ chs, e.tag = "channel") (h : InvFirst cid stream st) :
    InvFirst cid (stream ++ chs) (chs.foldl stepChannel st) := by
  induction chs generalizing stream st with
  | nil => rw [List.append_nil]; exact h
  | cons ch chs ih =>
    rw [List.foldl_cons, List.append_cons]
    exact ih (fun e he => htags e (List.mem_cons_of_mem ch he))
      (invFirst_stepChannel hcid (htags ch (List.mem_cons_self ch chs)) h)

theorem invFirst_foldProgramme {cid : String} {ps stream : List Element} {st : MergeState}
    (htags : ∀ e ∈ ps, e.tag = "programme") (h : InvFirst cid stream st) :
    InvFirst cid stream (ps.foldl stepProgramme st) := by
  induction ps generalizing st with
  | nil => exact h
  | cons p ps ih =>
    rw [List.foldl_cons]
    exact ih (fun e he => htags e (List.mem_cons_of_mem p he))
      (invFirst_stepProgramme (htags p (List.mem_cons_self p ps)) h)

theorem invFirst_mergeDoc {cid : String} (hcid : cid ≠ "") {stream : List Element}
    {st : MergeState} (root : Element) (h : InvFirst cid stream st) :
    InvFirst cid (stream ++ findall root "channel") (mergeDoc st root) := by
  rw [mergeDoc]
  exact invFirst_foldProgramme (fun e he => tag_of_mem_findall he)
    (invFirst_foldChannel hcid (fun e he => tag_of_mem_findall he) h)

theorem invFirst_merge {cid : String} (hcid : cid ≠ "") (epg_roots : List Element) :
    InvFirst cid ((epg_roots.map fun r => findall r "channel").flatten)
      (epg_roots.foldl mergeDoc ⟨[], [], []⟩) := by
  suffices h : ∀ (roots : List Element) (st : MergeState) (stream : List Element),
      InvFirst cid stream st →
      InvFirst cid (stream ++ (roots.map fun r => findall r "channel").flatten)
        (roots.foldl mergeDoc st) by
    have h0 : InvFirst cid [] ⟨[], [], []⟩ := ⟨rfl, by simp⟩
    have h1 := h epg_roots ⟨[], [], []⟩ [] h0
    rw [List.nil_append] at h1
    exact h1
  intro roots
  induction roots with
  | nil =>
    intro st stream h
    rw [List.map_nil, List.flatten_nil, List.append_nil]
    exact h
  | cons root roots ih =>
    intro st stream h
    rw [List.foldl_cons, List.map_cons, List.flatten_cons, ← List.append_assoc]
    exact ih _ _ (invFirst_mergeDoc hcid root h)

/-- C4: ties are resolved first-seen-wins — for any non-empty id `cid`, the
channel elements of the merged output carrying `cid` are exactly the first
channel carrying `cid` in the concatenated stream of channel children of the
input documents, in input order; every later duplicate is dropped. -/
theorem merge_epgs_first_seen_wins (epg_roots : List Element) (cid : String)
    (hcid : cid ≠ "") :
    (merge_epgs epg_roots).children.filter (chanMatch cid) =
      (((epg_roots.map fun r => findall r "channel").flatten).filter (chanMatch cid)).take 1 :=
  (invFirst_merge hcid epg_roots).1

/-- Witness for C4: documents `docA` and `docB` both carry a channel with id
`bg2` but different children; the merged output keeps exactly the first. -/
theorem merge_epgs_first_seen_wins_witness :
    ("bg2" : String) ≠ "" ∧
      (merge_epgs [docA, docB]).children.filter (chanMatch "bg2") =
        ((([docA, docB].map fun r => findall r "channel").flatten).filter
          (chanMatch "bg2")).take 1 :=
  ⟨by decide, merge_epgs_first_seen_wins [docA, docB] "bg2" (by decide)⟩
